import Mathlib

/-!
# CSVStudio — Key-Based Record Reconciliation and Format-Preserving Serialization

Shallow embedding of the reconciliation engine of CSVStudio:

* `src/lib/csv.ts` — two generations of the format-preserving exporter
  (a per-column quote-pattern variant and a whole-line quote-style variant),
  the quote detectors, the value formatters and the raw-line capture of
  `parseCSVFile`;
* `src/components/DeletePanel.tsx` — filter (delete-by-id) mode;
* `src/components/UpsertPanel.tsx` — merge (upsert) mode;
* `src/components/ComparePanel.tsx` — diff (compare) mode.

Rows (`Record<string, any>` in the source, produced by PapaParse with
`header: true`, hence string-valued) are embedded as association lists of
`String × String` pairs; JavaScript `Map` objects are embedded as
association lists with insertion-ordered iteration, position-preserving
`set`, and `delete` by filtering, matching the semantics of `Map.prototype`.
`undefined` field accesses (`r[key]`) are embedded as `Option String`.
-/

namespace CSVStudio

/-! ## JS string primitives

Structurally recursive embeddings of the JavaScript string methods the
engine uses (`trim`, `toLowerCase`, `startsWith`, `includes`, single-char
global `replace`, `join`), working on the character list of the string so
that every definition evaluates by kernel reduction. -/

/-- JS `s.trim()`: strip leading and trailing whitespace. -/
def jsTrim (s : String) : String :=
  ⟨((s.data.dropWhile Char.isWhitespace).reverse.dropWhile Char.isWhitespace).reverse⟩

/-- JS `s.toLowerCase()` (ASCII case folding). -/
def jsToLower (s : String) : String :=
  ⟨s.data.map Char.toLower⟩

/-- JS `s.startsWith(c)` for a one-character needle. -/
def jsStartsWithChar (s : String) (c : Char) : Bool :=
  match s.data with
  | [] => false
  | x :: _ => x == c

/-- JS `s.includes(c)` for a one-character needle. -/
def jsIncludesChar (s : String) (c : Char) : Bool :=
  s.data.contains c

/-- JS `s.replace(/c/g, r)` for a one-character pattern: every occurrence
of `c` is replaced by the characters `r`. -/
def jsReplaceChar (s : String) (c : Char) (r : List Char) : String :=
  ⟨(s.data.map (fun x => if x == c then r else [x])).flatten⟩

/-- JS `parts.join(sep)`. -/
def jsJoin (sep : String) : List String → String
  | [] => ""
  | x :: xs =>
    match xs with
    | [] => x
    | _ :: _ => x ++ sep ++ jsJoin sep xs

/-- A parsed data row: JS object from column name to string value
(missing columns absent, not null). -/
abbrev Row := List (String × String)

/-- `r[h]` — JS property access on a row object: first binding wins,
absent key is `undefined` (`none`). -/
def rowGet (r : Row) (h : String) : Option String :=
  (r.find? (fun p => p.1 == h)).map (fun p => p.2)

/-- `String(r[key] ?? '').trim()` — the key extraction used by the upsert
panel and by `formatPreservingExport`. -/
def keyOf (key : String) (r : Row) : String :=
  jsTrim ((rowGet r key).getD "")

/-- The `{trim, ci}` option pair of the delete and compare panels. -/
structure NormCfg where
  trim : Bool
  ci : Bool
deriving DecidableEq, Repr

/-- DeletePanel `handlePreview`/`handleRun` key normalization:
`const raw = String(r[key] ?? ''); const val = trim ? raw.trim() : raw;
const probe = ci ? val.toLowerCase() : val;`. -/
def deleteNormalize (cfg : NormCfg) (v : Option String) : String :=
  let raw := v.getD ""
  let val := if cfg.trim then jsTrim raw else raw
  if cfg.ci then jsToLower val else val

/-- ComparePanel `normalize`:
`let s = String(val ?? ''); if (trim) s = s.trim(); if (ci) s = s.toLowerCase(); return s;`. -/
def compareNormalize (cfg : NormCfg) (v : Option String) : String :=
  let s := v.getD ""
  let s := if cfg.trim then jsTrim s else s
  let s := if cfg.ci then jsToLower s else s
  s

/-- UpsertPanel key normalization (`handlePreview`/`handleRun`):
`String(r[key] ?? '').trim()` — always trims, never case-folds,
takes no configuration. -/
def upsertNormalize (v : Option String) : String :=
  jsTrim (v.getD "")

/-! ## JS `Map` embedding (insertion-ordered association list) -/

/-- `m.has(k)`. -/
def mapHas : List (String × α) → String → Bool
  | [], _ => false
  | p :: m, k => p.1 == k || mapHas m k

/-- `m.get(k)` (`none` = `undefined`; keys are unique in a `Map`, so the
first entry with the key is the entry). -/
def mapGet : List (String × α) → String → Option α
  | [], _ => none
  | p :: m, k => if p.1 == k then some p.2 else mapGet m k

/-- `m.set(k, v)`: updates the existing entry in place (keeping its
iteration position) or appends a fresh entry at the end. -/
def mapSet (m : List (String × α)) (k : String) (v : α) : List (String × α) :=
  if mapHas m k then m.map (fun p => if p.1 == k then (k, v) else p)
  else m ++ [(k, v)]

/-- `m.delete(k)` (iteration order of survivors is unchanged). -/
def mapDelete (m : List (String × α)) (k : String) : List (String × α) :=
  m.filter (fun p => p.1 != k)

/-- The loop body of the key-map construction:
`const id = norm(r); if (id) map.set(id, r);`. -/
def keyMapStep (norm : Row → String) (m : List (String × Row)) (r : Row) :
    List (String × Row) :=
  if norm r != "" then mapSet m (norm r) r else m

/-- The key → record lookup map shared by the matcher's modes:
`rows.forEach(r => { const id = norm(r); if (id) map.set(id, r); })`
(ComparePanel `baseMap`/`compareMap`, UpsertPanel `modMap`). -/
def buildKeyMap (norm : Row → String) (rows : List Row) : List (String × Row) :=
  rows.foldl (keyMapStep norm) []

/-! ## `src/lib/csv.ts` — data model and the two exporter generations -/

/-- `ParsedCSV` of `src/lib/csv.ts`. -/
structure ParsedCSV where
  rows : List Row
  headers : List String
  name : String
  rawLines : List String
  rawHeaderLine : String
deriving Repr

/-- Character-level state machine of `parseCSVLine` (per-column generation):
walks the line once, tracking `inQuotes`/`quoteChar`, accumulating the
current field, treating a doubled quote inside quotes as escaped. The
initial `quoteChar` is irrelevant: it is only read in the `inQuotes` state,
which is entered after it has been set. -/
def parseCSVLineAux (inQ : Bool) (qc : Char) (current : List Char)
    (fields : List String) (l : List Char) : List String :=
  match inQ, l with
  | _, [] => fields ++ [String.mk current]
  | false, c :: rest =>
    if c == '"' || c == '\'' then parseCSVLineAux true c (current ++ [c]) fields rest
    else if c == ',' then parseCSVLineAux false qc [] (fields ++ [String.mk current]) rest
    else parseCSVLineAux false qc (current ++ [c]) fields rest
  | true, c :: rest =>
    if c == qc then
      match rest with
      | c2 :: rest2 =>
        if c2 == qc then parseCSVLineAux true qc (current ++ [c, c2]) fields rest2
        else parseCSVLineAux false qc (current ++ [c]) fields (c2 :: rest2)
      | [] => fields ++ [String.mk (current ++ [c])]
    else parseCSVLineAux true qc (current ++ [c]) fields rest

/-- `parseCSVLine(line)`: split a CSV line into fields, respecting quotes. -/
def parseCSVLine (line : String) : List String :=
  parseCSVLineAux false ' ' [] [] line.data

/-- `detectColumnQuotePattern(rawLine)`: per field position, whether the
trimmed field starts with `"` or `'`. -/
def detectColumnQuotePattern (rawLine : String) : List Bool :=
  (parseCSVLine rawLine).map (fun field =>
    jsStartsWithChar (jsTrim field) '"' || jsStartsWithChar (jsTrim field) '\'')

/-- `formatValueForColumn(value, shouldQuote)` (per-column generation):
empty stays empty; otherwise quote with `"` when the value needs quoting or
the column position was quoted, doubling embedded `"`. -/
def formatValueForColumn (value : Option String) (shouldQuote : Bool) : String :=
  let str := value.getD ""
  if str == "" then ""
  else
    let needsQuoting := jsIncludesChar str ',' || jsIncludesChar str '\n'
      || jsIncludesChar str '\r' || jsIncludesChar str '"'
    if needsQuoting || shouldQuote then
      "\"" ++ jsReplaceChar str '"' ['"', '"'] ++ "\""
    else str

/-- `buildLineWithPattern(row, headers, columnQuotePattern)`:
`headers.map((h, i) => formatValueForColumn(row[h], pattern[i] ?? false)).join(',')`. -/
def buildLineWithPattern (row : Row) (headers : List String) (pattern : List Bool) : String :=
  jsJoin "," ((headers.enum).map (fun p =>
    formatValueForColumn (rowGet row p.2) (pattern.getD p.1 false)))

/-- `headers.length !== originalCSV.headers.length || !headers.every((h, i) => h === originalCSV.headers[i])`. -/
def headersChangedB (hs os : List String) : Bool :=
  hs.length != os.length || !((hs.zip os).all (fun p => p.1 == p.2))

/-- The `originalCSV.rows.forEach((row, i) => ...)` loop that both exporter
generations use to build the normalized-key → original-raw-line lookup,
embedded as a lockstep walk over rows and raw lines (`rawLines[i]` is
`undefined` past the end, which is falsy like the empty string):
`if (key && originalCSV.rawLines[i]) originalRawByKey.set(key, originalCSV.rawLines[i])`. -/
def rawByKeyAux (key : String) :
    List Row → List String → List (String × String) → List (String × String)
  | [], _, m => m
  | r :: rs, raws, m =>
    let k := keyOf key r
    let raw := raws.headD ""
    rawByKeyAux key rs raws.tail (if k != "" && raw != "" then mapSet m k raw else m)

/-- The raw-line lookup of `formatPreservingExport`. -/
def originalRawByKey (o : ParsedCSV) (key : String) : List (String × String) :=
  rawByKeyAux key o.rows o.rawLines []

/-- Header quote pattern of the per-column exporter. -/
def pcHeaderPattern (o : ParsedCSV) : List Bool :=
  detectColumnQuotePattern o.rawHeaderLine

/-- Data quote pattern of the per-column exporter:
`originalCSV.rawLines[0] ? detectColumnQuotePattern(originalCSV.rawLines[0]) : headerQuotePattern`. -/
def pcDataPattern (o : ParsedCSV) : List Bool :=
  if o.rawLines.headD "" != "" then detectColumnQuotePattern (o.rawLines.headD "")
  else pcHeaderPattern o

/-- Header line of the per-column exporter:
`headers.map((h, i) => formatValueForColumn(h, headerQuotePattern[i] ?? false)).join(',')`. -/
def pcHeaderLine (headers : List String) (o : ParsedCSV) : String :=
  jsJoin "," ((headers.enum).map (fun p =>
    formatValueForColumn (some p.2) ((pcHeaderPattern o).getD p.1 false)))

/-- Data lines of the per-column exporter: replay the stored raw line when
the row's key is not in `changedKeys`, the headers did not change and a raw
line is stored; otherwise rebuild with the detected per-column pattern. -/
def pcDataLines (headers : List String) (rows : List Row) (o : ParsedCSV)
    (key : String) (changedKeys : List String) : List String :=
  let rawMap := originalRawByKey o key
  let hChanged := headersChangedB headers o.headers
  rows.map (fun row =>
    let k := keyOf key row
    if !(changedKeys.contains k) && !hChanged && mapHas rawMap k then
      (mapGet rawMap k).getD ""
    else buildLineWithPattern row headers (pcDataPattern o))

/-- `formatPreservingExport` — per-column generation (`src/lib/csv.ts`,
first document): `[headerLine, ...dataLines].join('\r\n')`. -/
def formatPreservingExportPC (headers : List String) (rows : List Row)
    (o : ParsedCSV) (key : String) (changedKeys : List String) : String :=
  jsJoin "\r\n" (pcHeaderLine headers o :: pcDataLines headers rows o key changedKeys)

/-- Does the char pair `a` then `b` occur adjacently (JS `s.includes(ab)`
for a two-character needle)? -/
def listHasPair (a b : Char) : List Char → Bool
  | [] => false
  | x :: rest =>
    match rest with
    | [] => false
    | y :: _ => (x == a && y == b) || listHasPair a b rest

/-- `trimmed.includes(',"')`-style substring test on a string. -/
def strIncludesPair (s : String) (a b : Char) : Bool :=
  listHasPair a b s.data

/-- `detectQuotePattern(rawLine)` (whole-line generation): leading quote or
quote right after a comma decides `{quoted, quoteChar}`; default `"`. -/
def detectQuotePattern (rawLine : String) : Bool × Char :=
  let trimmed := jsTrim rawLine
  if jsStartsWithChar trimmed '"' || strIncludesPair trimmed ',' '"' then (true, '"')
  else if jsStartsWithChar trimmed '\'' || strIncludesPair trimmed ',' '\'' then (true, '\'')
  else (false, '"')

/-- `formatValue(value, quoted, quoteChar)` (whole-line generation): quote
with the detected `quoteChar` when the value needs quoting or the file's
style is quoted, doubling embedded occurrences of `quoteChar`. -/
def formatValue (value : Option String) (quoted : Bool) (quoteChar : Char) : String :=
  let str := value.getD ""
  let needsQuoting := jsIncludesChar str ',' || jsIncludesChar str '\n'
    || jsIncludesChar str '\r' || jsIncludesChar str quoteChar
  if needsQuoting || quoted then
    let escaped := jsReplaceChar str quoteChar [quoteChar, quoteChar]
    String.singleton quoteChar ++ escaped ++ String.singleton quoteChar
  else str

/-- `buildLine(row, headers, quoted, quoteChar)`:
`headers.map(h => formatValue(row[h], quoted, quoteChar)).join(',')`. -/
def buildLine (row : Row) (headers : List String) (quoted : Bool) (qc : Char) : String :=
  jsJoin "," (headers.map (fun h => formatValue (rowGet row h) quoted qc))

/-- Data quote style of the whole-line exporter:
`originalCSV.rawLines[0] ? detectQuotePattern(originalCSV.rawLines[0]) : headerPattern`. -/
def wlDataPattern (o : ParsedCSV) : Bool × Char :=
  if o.rawLines.headD "" != "" then detectQuotePattern (o.rawLines.headD "")
  else detectQuotePattern o.rawHeaderLine

/-- Header line of the whole-line exporter:
`buildLine(Object.fromEntries(headers.map(h => [h, h])), headers, ...)`. -/
def wlHeaderLine (headers : List String) (o : ParsedCSV) : String :=
  let headerPattern := detectQuotePattern o.rawHeaderLine
  buildLine (headers.map (fun h => (h, h))) headers headerPattern.1 headerPattern.2

/-- Data lines of the whole-line exporter: replay the stored raw line when
the row's key is not in `changedKeys` and a raw line is stored; otherwise
rebuild with the detected whole-line style (no header-change check in this
generation). -/
def wlDataLines (headers : List String) (rows : List Row) (o : ParsedCSV)
    (key : String) (changedKeys : List String) : List String :=
  let rawMap := originalRawByKey o key
  rows.map (fun row =>
    let k := keyOf key row
    if !(changedKeys.contains k) && mapHas rawMap k then (mapGet rawMap k).getD ""
    else buildLine row headers (wlDataPattern o).1 (wlDataPattern o).2)

/-- `formatPreservingExport` — whole-line generation (`src/lib/csv.ts`,
second document): `[headerLine, ...dataLines].join('\r\n')`. -/
def formatPreservingExportWL (headers : List String) (rows : List Row)
    (o : ParsedCSV) (key : String) (changedKeys : List String) : String :=
  jsJoin "\r\n" (wlHeaderLine headers o :: wlDataLines headers rows o key changedKeys)

/-! ## `parseCSVFile` — raw-line capture plus the external tokenizer -/

/-- Strip one trailing `\r` (the optional `\r` of the `/\r?\n/` separator). -/
def stripCR (cs : List Char) : List Char :=
  match cs.getLast? with
  | some '\r' => cs.dropLast
  | _ => cs

/-- Accumulator walk for `rawContent.split(/\r?\n/)`. -/
def splitNlAux : List Char → List Char → List String
  | [], cur => [String.mk (stripCR cur)]
  | c :: rest, cur =>
    if c == '\n' then String.mk (stripCR cur) :: splitNlAux rest []
    else splitNlAux rest (cur ++ [c])

/-- JS `rawContent.split(/\r?\n/)`. -/
def jsSplitLines (s : String) : List String :=
  splitNlAux s.data []

/-- Modelled from the spec: the record reader of the external delimited-text
tokenizer (`Papa.parse`, not part of this repository), which per §2 "turns
raw text into an ordered sequence of header names and an ordered sequence of
field-maps". Standard quoted-CSV reading: fields split on `,`, records split
on line breaks, a `"`-quoted field may span commas and line breaks, a
doubled `"` inside quotes is an escaped quote; `\r` of a `\r\n` break is
dropped. -/
def papaRecordsAux (inQ : Bool) (cur : List Char) (fields : List String)
    (recs : List (List String)) (l : List Char) : List (List String) :=
  match inQ, l with
  | _, [] => recs ++ [fields ++ [String.mk cur]]
  | false, c :: rest =>
    if c == '"' then papaRecordsAux true cur fields recs rest
    else if c == ',' then papaRecordsAux false [] (fields ++ [String.mk cur]) recs rest
    else if c == '\n' then papaRecordsAux false [] [] (recs ++ [fields ++ [String.mk cur]]) rest
    else if c == '\r' then papaRecordsAux false cur fields recs rest
    else papaRecordsAux false (cur ++ [c]) fields recs rest
  | true, c :: rest =>
    if c == '"' then
      match rest with
      | c2 :: rest2 =>
        if c2 == '"' then papaRecordsAux true (cur ++ ['"']) fields recs rest2
        else papaRecordsAux false cur fields recs (c2 :: rest2)
      | [] => recs ++ [fields ++ [String.mk cur]]
    else papaRecordsAux true (cur ++ [c]) fields recs rest

/-- Modelled from the spec: `Papa.parse(file, ...)` record list. -/
def papaRecords (content : String) : List (List String) :=
  papaRecordsAux false [] [] [] content.data

/-- `parseCSVFile` (`src/lib/csv.ts`): raw lines come from
`rawContent.split(/\r?\n/).filter(line => line.trim() !== '')` with the
first kept line as `rawHeaderLine` and the rest as `rawLines`; rows and
headers come from the tokenizer with `header: true`,
`skipEmptyLines: true` (records that are a single empty field dropped) and
`transformHeader` trimming each header name. -/
def parseCSVFileModel (content : String) (name : String) : ParsedCSV :=
  let allLines := (jsSplitLines content).filter (fun line => jsTrim line != "")
  let rawHeaderLine := allLines.headD ""
  let rawDataLines := allLines.tail
  let recs := (papaRecords content).filter (fun rec => rec != [""])
  let headers := (recs.headD []).map jsTrim
  let rows := (recs.drop 1).map (fun fields => headers.zip fields)
  ⟨rows, headers, name, rawDataLines, rawHeaderLine⟩

/-! ## DeletePanel — filter mode -/

/-- DeletePanel `handlePreview`:
`toDelete = original.rows.filter(r => cleanIds.set.has(probe(r)))`. -/
def deleteToDelete (cfg : NormCfg) (key : String) (idSet : List String)
    (rows : List Row) : List Row :=
  rows.filter (fun r => idSet.contains (deleteNormalize cfg (rowGet r key)))

/-- DeletePanel `handleRun`:
`filtered = original.rows.filter(r => !cleanIds.set.has(probe(r)))`. -/
def deleteKept (cfg : NormCfg) (key : String) (idSet : List String)
    (rows : List Row) : List Row :=
  rows.filter (fun r => !(idSet.contains (deleteNormalize cfg (rowGet r key))))

/-! ## ComparePanel — diff mode -/

/-- The incremental header union (`allHeaders`/`headersOut` with a `seen`
set): start from the left list, append each right header not yet present. -/
def unionHeaders (a b : List String) : List String :=
  b.foldl (fun acc h => if acc.contains h then acc else acc ++ [h]) a

/-- The per-column diff record of a matched pair: for each unioned header
whose normalized values differ, record the base row's original value.
(`diffs[h] = String(baseRow[h] ?? '')`.) -/
def diffCols (cfg : NormCfg) (allHeaders : List String) (baseRow compareRow : Row) : Row :=
  allHeaders.foldl (fun d h =>
    let baseVal := compareNormalize cfg (some ((rowGet baseRow h).getD ""))
    let compVal := compareNormalize cfg (some ((rowGet compareRow h).getD ""))
    if baseVal != compVal then d ++ [(h, (rowGet baseRow h).getD "")] else d) []

/-- `DiffResult` of ComparePanel. -/
structure DiffResult where
  added : List Row
  removed : List Row
  changed : List Row
  changedById : List (String × Row)
  allHeaders : List String
deriving DecidableEq, Repr

/-- One `baseMap.forEach` iteration of the diff: a base entry whose key is
absent from `compareMap` is removed; one with a matching compare row that
differs in some unioned column is changed (the compare row is pushed and the
per-column before-values recorded). -/
def diffStep (cfg : NormCfg) (allHeaders : List String)
    (compareMap : List (String × Row)) (acc : List Row × List Row × List (String × Row))
    (p : String × Row) : List Row × List Row × List (String × Row) :=
  let (removed, changed, cbid) := acc
  if !(mapHas compareMap p.1) then (removed ++ [p.2], changed, cbid)
  else
    let compareRow := (mapGet compareMap p.1).getD []
    let diffs := diffCols cfg allHeaders p.2 compareRow
    if diffs != ([] : Row) then (removed, changed ++ [compareRow], mapSet cbid p.1 diffs)
    else (removed, changed, cbid)

/-- The diff computation of `handleCompareClick`: build both key maps,
iterate `baseMap` to fill `removed`/`changed`/`changedById`, iterate
`compareMap` to fill `added`. -/
def computeDiff (cfg : NormCfg) (base compare : ParsedCSV) (key : String) : DiffResult :=
  let norm := fun r => compareNormalize cfg (rowGet r key)
  let baseMap := buildKeyMap norm base.rows
  let compareMap := buildKeyMap norm compare.rows
  let allHeaders := unionHeaders base.headers compare.headers
  let acc := baseMap.foldl (diffStep cfg allHeaders compareMap)
    (([] : List Row), ([] : List Row), ([] : List (String × Row)))
  let added := (compareMap.filter (fun p => !(mapHas baseMap p.1))).map (fun p => p.2)
  ⟨added, acc.1, acc.2.1, acc.2.2, allHeaders⟩

/-- `handleCompareClick`: the guard `if (!baseCSV || !compareCSV || !key) return;`
refuses only when no key is selected (empty string); otherwise the diff
runs and a `DiffResult` is produced. -/
def handleCompareClick (base compare : ParsedCSV) (key : String) (cfg : NormCfg) :
    Option DiffResult :=
  if key == "" then none else some (computeDiff cfg base compare key)

/-! ## UpsertPanel — merge mode -/

/-- The output-schema mode of the upsert panel. -/
inductive HeaderMode where
  | original
  | union
deriving DecidableEq, Repr

/-- `headersOut`: original headers, or their union with modification-only
headers in first-seen order. -/
def upsertHeadersOut (mode : HeaderMode) (o mods : ParsedCSV) : List String :=
  match mode with
  | .original => o.headers
  | .union => unionHeaders o.headers mods.headers

/-- `modMap`: normalized key → modification record, empty keys skipped. -/
def upsertModMap (key : String) (mods : List Row) : List (String × Row) :=
  buildKeyMap (keyOf key) mods

/-- `hasChanges` of UpsertPanel `handleRun`: some output column where
`String(row[h] ?? '')` differs from
`mr[h] !== undefined ? mr[h] : row[h] ?? ''`. -/
def hasChangesB (headersOut : List String) (r mr : Row) : Bool :=
  headersOut.any (fun h =>
    let before := (rowGet r h).getD ""
    let after := match rowGet mr h with
      | some v => v
      | none => (rowGet r h).getD ""
    before != after)

/-- `Object.assign(row, mr)` / `{ ...row, ...mr }`: fields of `mr` override
fields of `row` in place, fresh fields of `mr` are appended. -/
def assignRow (r mr : Row) : Row :=
  (r.map (fun p =>
    match rowGet mr p.1 with
    | some v => (p.1, v)
    | none => p))
  ++ mr.filter (fun q => !(r.any (fun p => p.1 == q.1)))

/-- One iteration of the base pass of UpsertPanel `handleRun`: a base row
with a pending modification is merged when it actually changes, and its key
is consumed from the map either way. -/
def upsertStep (headersOut : List String) (key : String)
    (m : List (String × Row)) (r : Row) : Row × List (String × Row) :=
  let id := keyOf key r
  if id != "" && mapHas m id then
    let mr := (mapGet m id).getD []
    (if hasChangesB headersOut r mr then assignRow r mr else r, mapDelete m id)
  else (r, m)

/-- The base pass of UpsertPanel `handleRun` (`original.rows.map(...)` with
the mutable `modMap` threaded through): returns the processed base rows in
order and the surviving modification map. -/
def upsertPass (headersOut : List String) (key : String) :
    List (String × Row) → List Row → List Row × List (String × Row)
  | m, [] => ([], m)
  | m, r :: rs =>
    let (r', m') := upsertStep headersOut key m r
    let (rest, mf) := upsertPass headersOut key m' rs
    (r' :: rest, mf)

/-- UpsertPanel `handleRun` output rows: the processed base rows followed by
the surviving modification records
(`for (const [, r] of modMap) outRows.push(r)`). -/
def upsertRun (o mods : ParsedCSV) (key : String) (mode : HeaderMode) : List Row :=
  let headersOut := upsertHeadersOut mode o mods
  let m0 := upsertModMap key mods.rows
  let res := upsertPass headersOut key m0 o.rows
  res.1 ++ res.2.map (fun p => p.2)

/-- The insert list alone (the surviving modification records, in map
iteration order). -/
def upsertInserts (o mods : ParsedCSV) (key : String) (mode : HeaderMode) : List Row :=
  (upsertPass (upsertHeadersOut mode o mods) key (upsertModMap key mods.rows) o.rows).2.map
    (fun p => p.2)

/-! ## Lemmas about the `Map` embedding -/

theorem mem_mapSet {α : Type} {m : List (String × α)} {k : String} {v : α} {p : String × α}
    (hp : p ∈ mapSet m k v) : p ∈ m ∨ p = (k, v) := by
  unfold mapSet at hp
  split at hp
  · rcases List.mem_map.mp hp with ⟨q, hq, hpq⟩
    by_cases h : (q.1 == k) = true
    · rw [if_pos h] at hpq; exact Or.inr hpq.symm
    · rw [if_neg h] at hpq; exact Or.inl (hpq ▸ hq)
  · rcases List.mem_append.mp hp with h | h
    · exact Or.inl h
    · exact Or.inr (by simpa using h)

theorem mapSet_eq_append {α : Type} {m : List (String × α)} {k : String} (v : α)
    (h : mapHas m k = false) : mapSet m k v = m ++ [(k, v)] := by
  unfold mapSet
  simp [h]

theorem mapGet_mem {α : Type} : ∀ {m : List (String × α)} {k : String} {v : α},
    mapGet m k = some v → (k, v) ∈ m := by
  intro m
  induction m with
  | nil => intro k v h; simp [mapGet] at h
  | cons q m ih =>
    intro k v h
    simp only [mapGet] at h
    split at h
    · next hq =>
      cases q with
      | mk a b =>
        simp only [beq_iff_eq] at hq
        simp only [Option.some.injEq] at h
        subst hq; subst h
        exact List.mem_cons_self _ _
    · exact List.mem_cons_of_mem _ (ih h)

theorem mapHas_iff_isSome {α : Type} : ∀ {m : List (String × α)} {k : String},
    mapHas m k = true ↔ (mapGet m k).isSome = true := by
  intro m
  induction m with
  | nil => intro k; simp [mapHas, mapGet]
  | cons q m ih =>
    intro k
    by_cases hq : (q.1 == k) = true
    · simp [mapHas, mapGet, hq]
    · simp [mapHas, mapGet, hq, ih]

theorem mapGet_append_single {α : Type} {k : String} (v : α) :
    ∀ {m : List (String × α)}, mapHas m k = false → mapGet (m ++ [(k, v)]) k = some v := by
  intro m
  induction m with
  | nil => intro _; simp [mapGet]
  | cons q m ih =>
    intro h
    simp only [mapHas, Bool.or_eq_false_iff] at h
    simpa [mapGet, h.1] using ih h.2

theorem mapGet_mapSet_self {α : Type} {k : String} (v : α) :
    ∀ (m : List (String × α)), mapGet (mapSet m k v) k = some v := by
  intro m
  unfold mapSet
  split
  · next h =>
    induction m with
    | nil => simp [mapHas] at h
    | cons q m ih =>
      by_cases hq : (q.1 == k) = true
      · simp [mapGet, hq]
      · have h' : mapHas m k = true := by
          simpa [mapHas, hq] using h
        simpa [mapGet, hq] using ih h'
  · next h =>
    exact mapGet_append_single v (by simpa using h)

theorem mapGet_cons {α : Type} (q : String × α) (m : List (String × α)) (k : String) :
    mapGet (q :: m) k = if q.1 == k then some q.2 else mapGet m k := rfl

theorem mapGet_map_update_ne {α : Type} {k' k : String} (v : α) (hne : k' ≠ k) :
    ∀ (m : List (String × α)),
      mapGet (m.map (fun p => if p.1 == k' then (k', v) else p)) k = mapGet m k := by
  intro m
  induction m with
  | nil => simp [mapGet]
  | cons q m ih =>
    rw [List.map_cons, mapGet_cons, mapGet_cons]
    by_cases hq : (q.1 == k') = true
    · rw [if_pos hq]
      have h1 : ¬((k' : String) == k) = true := by simpa using hne
      have hqk : ¬(q.1 == k) = true := by
        simp only [beq_iff_eq] at hq ⊢
        simp [hq, hne]
      rw [if_neg h1, if_neg hqk]
      exact ih
    · rw [if_neg hq]
      by_cases hqk : (q.1 == k) = true
      · rw [if_pos hqk, if_pos hqk]
      · rw [if_neg hqk, if_neg hqk]
        exact ih

theorem mapGet_append_single_ne {α : Type} {k' k : String} (v : α) (hne : k' ≠ k) :
    ∀ (m : List (String × α)), mapGet (m ++ [(k', v)]) k = mapGet m k := by
  intro m
  induction m with
  | nil => simp [mapGet, show (k' == k) = false by simpa using hne]
  | cons q m ih =>
    by_cases hqk : (q.1 == k) = true
    · simp [mapGet, hqk]
    · simp [mapGet, hqk, ih]

theorem mapGet_mapSet_ne {α : Type} {k' k : String} (v : α) (hne : k' ≠ k) :
    ∀ (m : List (String × α)), mapGet (mapSet m k' v) k = mapGet m k := by
  intro m
  unfold mapSet
  split
  · exact mapGet_map_update_ne v hne m
  · exact mapGet_append_single_ne v hne m

theorem mapDelete_subset {α : Type} {m : List (String × α)} {k : String} {p : String × α}
    (hp : p ∈ mapDelete m k) : p ∈ m :=
  List.mem_of_mem_filter hp

/-- Everything reachable by folding `keyMapStep` either was in the initial
map or is a row of the list stored under its own nonempty normalized key. -/
theorem foldl_keyMapStep_mem {norm : Row → String} :
    ∀ (l : List Row) (m : List (String × Row)) (p : String × Row),
      p ∈ l.foldl (keyMapStep norm) m →
      p ∈ m ∨ (p.2 ∈ l ∧ p.1 = norm p.2 ∧ p.1 ≠ "") := by
  intro l
  induction l with
  | nil => intro m p hp; exact Or.inl hp
  | cons r rs ih =>
    intro m p hp
    simp only [List.foldl_cons] at hp
    rcases ih _ p hp with h | h
    · unfold keyMapStep at h
      by_cases hr : norm r = ""
      · rw [if_neg (by simp [hr])] at h
        exact Or.inl h
      · rw [if_pos (by simp [hr])] at h
        rcases mem_mapSet h with h' | h'
        · exact Or.inl h'
        · subst h'
          exact Or.inr ⟨List.mem_cons_self _ _, rfl, hr⟩
    · exact Or.inr ⟨List.mem_cons_of_mem _ h.1, h.2⟩

/-- Every entry of a key map comes from the row list and is stored under its
own nonempty normalized key. -/
theorem buildKeyMap_mem {norm : Row → String} {rows : List Row} {p : String × Row}
    (hp : p ∈ buildKeyMap norm rows) : p.2 ∈ rows ∧ p.1 = norm p.2 ∧ p.1 ≠ "" := by
  rcases foldl_keyMapStep_mem rows [] p hp with h | h
  · simp at h
  · exact h

/-- A list splits into the part failing and the part satisfying a
predicate. -/
theorem length_filter_not_add_length_filter {α : Type} (p : α → Bool) (l : List α) :
    (l.filter (fun a => !(p a))).length + (l.filter p).length = l.length := by
  induction l with
  | nil => rfl
  | cons a l ih =>
    by_cases h : p a = true <;> simp [List.filter, h, ← ih] <;> omega

/-- The diff's `baseMap.forEach` fold only ever pushes base-map values into
`removed` and compare-map values into `changed`. -/
theorem foldl_diffStep_mem {cfg : NormCfg} {allHeaders : List String}
    {compareMap : List (String × Row)} (P : Row → Prop)
    (hcomp : ∀ p ∈ compareMap, P p.2) :
    ∀ (l : List (String × Row)), (∀ p ∈ l, P p.2) →
    ∀ (acc : List Row × List Row × List (String × Row)),
      (∀ x ∈ acc.1, P x) → (∀ x ∈ acc.2.1, P x) →
      (∀ x ∈ (l.foldl (diffStep cfg allHeaders compareMap) acc).1, P x) ∧
      (∀ x ∈ (l.foldl (diffStep cfg allHeaders compareMap) acc).2.1, P x) := by
  intro l
  induction l with
  | nil => intro _ acc h1 h2; exact ⟨h1, h2⟩
  | cons p ps ih =>
    intro hl acc h1 h2
    simp only [List.foldl_cons]
    obtain ⟨removed, changed, cbid⟩ := acc
    refine ih (fun q hq => hl q (List.mem_cons_of_mem _ hq)) _ ?_ ?_
    all_goals
      unfold diffStep
      by_cases hhas : mapHas compareMap p.1 = true
    · simp only [hhas, Bool.not_true, Bool.false_eq_true, if_false]
      obtain ⟨v, hv⟩ := Option.isSome_iff_exists.mp (mapHas_iff_isSome.mp hhas)
      have hPv : P v := hcomp _ (mapGet_mem hv)
      split
      · exact h1
      · exact h1
    · simp only [hhas]
      simp only [Bool.not_false, if_true]
      intro x hx
      rcases List.mem_append.mp hx with h | h
      · exact h1 x h
      · exact (List.mem_singleton.mp h) ▸ hl p (List.mem_cons_self _ _)
    · simp only [hhas, Bool.not_true, Bool.false_eq_true, if_false]
      obtain ⟨v, hv⟩ := Option.isSome_iff_exists.mp (mapHas_iff_isSome.mp hhas)
      have hPv : P v := hcomp _ (mapGet_mem hv)
      rw [hv]
      split
      · intro x hx
        rcases List.mem_append.mp hx with h | h
        · exact h2 x h
        · exact (List.mem_singleton.mp h) ▸ hPv
      · exact h2
    · simp only [hhas]
      simp only [Bool.not_false, if_true]
      exact h2

/-- Appending an element to the front shifts `getLast?` fallback through
`Option.or`. -/
theorem getLast?_cons_or {α : Type} (a : α) (l : List α) (x : Option α) :
    ((a :: l).getLast?).or x = (l.getLast?).or (some a) := by
  cases l with
  | nil => rfl
  | cons b l' =>
    rcases hgl : (b :: l').getLast? with _ | z
    · simp at hgl
    · rw [List.getLast?_cons_cons, hgl]
      rfl

/-- Folding `keyMapStep` looks up to the last row of the list whose
normalized key is `k`, falling back to the initial map. -/
theorem foldl_keyMapStep_get {norm : Row → String} {k : String} (hk : k ≠ "") :
    ∀ (l : List Row) (m : List (String × Row)),
      mapGet (l.foldl (keyMapStep norm) m) k =
        ((l.filter (fun r => norm r == k)).getLast?).or (mapGet m k) := by
  intro l
  induction l with
  | nil => intro m; simp [Option.or]
  | cons r rs ih =>
    intro m
    simp only [List.foldl_cons, List.filter_cons]
    by_cases hr : (norm r == k) = true
    · have hrk : norm r = k := by simpa using hr
      have hne : norm r ≠ "" := hrk ▸ hk
      rw [if_pos hr, getLast?_cons_or]
      rw [show keyMapStep norm m r = mapSet m (norm r) r by
        unfold keyMapStep; rw [if_pos (by simpa using hne)]]
      rw [ih, hrk, mapGet_mapSet_self]
    · rw [if_neg hr]
      have hmg : mapGet (keyMapStep norm m r) k = mapGet m k := by
        unfold keyMapStep
        by_cases hne : norm r = ""
        · rw [if_neg (by simpa using hne)]
        · rw [if_pos (by simpa using hne)]
          exact mapGet_mapSet_ne r (by simpa using hr) m
      rw [ih, hmg]

/-- `compareNormalize` maps a missing value to the empty string. -/
theorem compareNormalize_none (cfg : NormCfg) : compareNormalize cfg none = "" := by
  obtain ⟨t, c⟩ := cfg
  cases t <;> cases c <;> rfl

/-- A key map over rows whose keys all normalize to empty is empty. -/
theorem buildKeyMap_nil_of_empty {norm : Row → String} {rows : List Row}
    (h : ∀ r ∈ rows, norm r = "") : buildKeyMap norm rows = [] := by
  unfold buildKeyMap
  suffices hgen : ∀ (l : List Row), (∀ r ∈ l, norm r = "") →
      ∀ m, l.foldl (keyMapStep norm) m = m by
    exact hgen rows h []
  intro l
  induction l with
  | nil => intro _ m; rfl
  | cons r rs ih =>
    intro hl m
    simp only [List.foldl_cons]
    rw [show keyMapStep norm m r = m by
      unfold keyMapStep
      rw [if_neg (by simp [hl r (List.mem_cons_self _ _)])]]
    exact ih (fun q hq => hl q (List.mem_cons_of_mem _ hq)) m

/-- The upsert base pass with an exhausted modification map leaves every
base row unchanged and produces no inserts. -/
theorem upsertPass_empty_map (headersOut : List String) (key : String) :
    ∀ (rows : List Row), upsertPass headersOut key [] rows = (rows, []) := by
  intro rows
  induction rows with
  | nil => rfl
  | cons r rs ih =>
    simp [upsertPass, upsertStep, mapHas, ih]

/-! ## The claims -/

/-- C4, counterexample: at configuration `{trim: false, caseInsensitive:
false}` and raw value `"a "`, delete-by-id matching and compare matching
keep the trailing blank while upsert matching strips it, so the three modes
do not apply the identical normalization function for every configuration. -/
theorem C4_counterexample :
    deleteNormalize ⟨false, false⟩ (some "a ") = "a " ∧
    compareNormalize ⟨false, false⟩ (some "a ") = "a " ∧
    upsertNormalize (some "a ") = "a" := by
  decide

/-- C4 (amended): delete-by-id matching and compare matching share the
identical configurable normalization (coerce missing to the empty string,
trim iff `trim`, lower-case iff `caseInsensitive`); upsert key matching
applies that same function fixed at `{trim: true, caseInsensitive: false}`,
so all three agree exactly when trim is on and case folding is off. -/
theorem C4_shared_normalization :
    ∀ (cfg : NormCfg) (v : Option String),
      deleteNormalize cfg v = compareNormalize cfg v ∧
      upsertNormalize v = compareNormalize ⟨true, false⟩ v := by
  intro cfg v
  exact ⟨rfl, rfl⟩

/-- C10: in filter (delete) mode, for every base file, key column,
normalization configuration and identifier set, the kept records and the
to-delete records partition the base records: every base record is in one
of the two outputs, none is in both, and the lengths add up. -/
theorem C10_filter_partition :
    ∀ (cfg : NormCfg) (key : String) (idSet : List String) (rows : List Row) (r : Row),
      (r ∈ rows ↔ (r ∈ deleteKept cfg key idSet rows ∨ r ∈ deleteToDelete cfg key idSet rows)) ∧
      ¬(r ∈ deleteKept cfg key idSet rows ∧ r ∈ deleteToDelete cfg key idSet rows) ∧
      (deleteKept cfg key idSet rows).length + (deleteToDelete cfg key idSet rows).length
        = rows.length := by
  intro cfg key idSet rows r
  unfold deleteKept deleteToDelete
  refine ⟨⟨?_, ?_⟩, ?_, length_filter_not_add_length_filter _ rows⟩
  · intro hr
    by_cases h : idSet.contains (deleteNormalize cfg (rowGet r key)) = true
    · exact Or.inr (List.mem_filter.mpr ⟨hr, h⟩)
    · exact Or.inl (List.mem_filter.mpr ⟨hr, by simpa using h⟩)
  · rintro (h | h) <;> exact (List.mem_filter.mp h).1
  · rintro ⟨h1, h2⟩
    have b1 := (List.mem_filter.mp h1).2
    have b2 := (List.mem_filter.mp h2).2
    rw [b2] at b1
    simp at b1


/-- C8: a record classified into the added, removed or changed bucket of a
completed compare run always has a nonempty normalized key; hence every
record whose key value normalizes to the empty string is excluded from all
matching on both sides and never classified. -/
theorem C8_empty_keys_never_classified :
    ∀ (cfg : NormCfg) (base compare : ParsedCSV) (key : String) (d : DiffResult) (r : Row),
      handleCompareClick base compare key cfg = some d →
      (r ∈ d.added ∨ r ∈ d.removed ∨ r ∈ d.changed) →
      compareNormalize cfg (rowGet r key) ≠ "" := by
  intro cfg base compare key d r hrun hmem
  unfold handleCompareClick at hrun
  split at hrun
  · exact absurd hrun (by simp)
  · have hd : d = computeDiff cfg base compare key := (Option.some.inj hrun).symm
    subst hd
    have hbase : ∀ p ∈ buildKeyMap (fun r => compareNormalize cfg (rowGet r key)) base.rows,
        compareNormalize cfg (rowGet p.2 key) ≠ "" := by
      intro p hp
      have h := buildKeyMap_mem hp
      rw [← h.2.1]
      exact h.2.2
    have hcomp : ∀ p ∈ buildKeyMap (fun r => compareNormalize cfg (rowGet r key)) compare.rows,
        compareNormalize cfg (rowGet p.2 key) ≠ "" := by
      intro p hp
      have h := buildKeyMap_mem hp
      rw [← h.2.1]
      exact h.2.2
    simp only [computeDiff] at hmem
    rcases hmem with h | h | h
    · rcases List.mem_map.mp h with ⟨p, hp, rfl⟩
      exact hcomp p (List.mem_of_mem_filter hp)
    · exact (foldl_diffStep_mem (fun x => compareNormalize cfg (rowGet x key) ≠ "")
        hcomp _ hbase _ (by simp) (by simp)).1 r h
    · exact (foldl_diffStep_mem (fun x => compareNormalize cfg (rowGet x key) ≠ "")
        hcomp _ hbase _ (by simp) (by simp)).2 r h

/-- C8, witness: in spec Scenario C the added record `{id: "3", v: "c"}` is
classified, and its normalized key is nonempty. -/
theorem C8_empty_keys_never_classified_witness :
    compareNormalize ⟨true, false⟩ (rowGet [("id", "3"), ("v", "c")] "id") ≠ "" :=
  C8_empty_keys_never_classified ⟨true, false⟩
    ⟨[[("id", "1"), ("v", "a")], [("id", "2"), ("v", "b")]], ["id", "v"], "b.csv",
      ["1,a", "2,b"], "id,v"⟩
    ⟨[[("id", "2"), ("v", "b")], [("id", "3"), ("v", "c")]], ["id", "v"], "c.csv",
      ["2,b", "3,c"], "id,v"⟩
    "id"
    ⟨[[("id", "3"), ("v", "c")]], [[("id", "1"), ("v", "a")]], [], [], ["id", "v"]⟩
    [("id", "3"), ("v", "c")]
    (by decide) (Or.inl (by decide))

/-- C9, counterexample: in filter (delete) mode no record lookup map is
built, so earlier same-key records are not shadowed — with two base records
whose keys both normalize to `"1"` and the identifier set `{"1"}`, both
records (the earlier one included) are classified for deletion. -/
theorem C9_counterexample :
    deleteNormalize ⟨true, false⟩ (rowGet [("id", "1"), ("v", "a")] "id")
      = deleteNormalize ⟨true, false⟩ (rowGet [("id", "1"), ("v", "b")] "id") ∧
    deleteToDelete ⟨true, false⟩ "id" ["1"]
        (parseCSVFileModel "id,v\n1,a\n1,b" "base.csv").rows
      = [[("id", "1"), ("v", "a")], [("id", "1"), ("v", "b")]] := by
  decide

/-- C9 (amended): in merge and diff modes the lookup map built for a file
maps every nonempty normalized key to the *last* record of the file with
that key, shadowing earlier same-key records, and duplicates are never
rejected; in filter mode no record lookup map exists — every base record
whose normalized key is in the identifier set is matched, duplicates
included. -/
theorem C9_last_write_wins :
    (∀ (norm : Row → String) (rows : List Row) (k : String), k ≠ "" →
      mapGet (buildKeyMap norm rows) k
        = (rows.filter (fun r => norm r == k)).getLast?) ∧
    (∀ (cfg : NormCfg) (key : String) (idSet : List String) (rows : List Row) (r : Row),
      r ∈ rows → idSet.contains (deleteNormalize cfg (rowGet r key)) = true →
      r ∈ deleteToDelete cfg key idSet rows) := by
  constructor
  · intro norm rows k hk
    unfold buildKeyMap
    rw [foldl_keyMapStep_get hk]
    rw [show mapGet ([] : List (String × Row)) k = none from rfl, Option.or_none]
  · intro cfg key idSet rows r hr hc
    exact List.mem_filter.mpr ⟨hr, hc⟩

/-- C9, witness: with two modification records under the duplicate key
`"2"`, the lookup map holds the last of them; and a concrete duplicate-key
base record is matched for deletion. -/
theorem C9_last_write_wins_witness :
    mapGet (buildKeyMap (keyOf "id")
        [[("id", "2"), ("v", "a")], [("id", "2"), ("v", "b")]]) "2"
      = ([[("id", "2"), ("v", "a")], [("id", "2"), ("v", "b")]].filter
          (fun r => keyOf "id" r == "2")).getLast? ∧
    [("id", "1"), ("v", "a")] ∈ deleteToDelete ⟨true, false⟩ "id" ["1"]
        [[("id", "1"), ("v", "a")], [("id", "1"), ("v", "b")]] :=
  ⟨C9_last_write_wins.1 _ _ _ (by decide),
   C9_last_write_wins.2 ⟨true, false⟩ "id" ["1"] _ _ (by decide) (by decide)⟩

/-- C7, counterexample: with the key column `"x"` absent from the headers of
both parsed files, the compare engine does not refuse — it runs and returns
a (degenerate, all-empty) diff result instead of an error or no result. -/
theorem C7_counterexample :
    ("x" ∉ (parseCSVFileModel "a\n1" "b.csv").headers) ∧
    handleCompareClick (parseCSVFileModel "a\n1" "b.csv")
        (parseCSVFileModel "a\n1" "c.csv") "x" ⟨true, false⟩
      = some ⟨[], [], [], [], ["a"]⟩ := by
  decide

/-- C7 (amended): the engine refuses to run matching only when no key is
selected (the empty key string). With a chosen key column that no record of
the input files binds, it proceeds: every derived key normalizes to empty
and is excluded from the lookup maps, so the diff completes with all
buckets empty, and the upsert completes with every base row unchanged and
no inserts. -/
theorem C7_missing_key_runs_degenerately :
    (∀ (cfg : NormCfg) (base compare : ParsedCSV) (key : String), key ≠ "" →
      (∀ r ∈ base.rows, rowGet r key = none) →
      (∀ r ∈ compare.rows, rowGet r key = none) →
      handleCompareClick base compare key cfg
        = some ⟨[], [], [], [], unionHeaders base.headers compare.headers⟩) ∧
    (∀ (o mods : ParsedCSV) (key : String) (mode : HeaderMode),
      (∀ r ∈ mods.rows, rowGet r key = none) →
      upsertRun o mods key mode = o.rows) := by
  constructor
  · intro cfg base compare key hk hb hc
    unfold handleCompareClick
    rw [if_neg (by simpa using hk)]
    congr 1
    have hbm : buildKeyMap (fun r => compareNormalize cfg (rowGet r key)) base.rows = [] :=
      buildKeyMap_nil_of_empty (fun r hr => by rw [hb r hr]; exact compareNormalize_none cfg)
    have hcm : buildKeyMap (fun r => compareNormalize cfg (rowGet r key)) compare.rows = [] :=
      buildKeyMap_nil_of_empty (fun r hr => by rw [hc r hr]; exact compareNormalize_none cfg)
    simp only [computeDiff, hbm, hcm]
    rfl
  · intro o mods key mode hm
    have h0 : upsertModMap key mods.rows = [] := by
      unfold upsertModMap
      refine buildKeyMap_nil_of_empty (fun r hr => ?_)
      unfold keyOf
      rw [hm r hr]
      rfl
    simp only [upsertRun, h0, upsertPass_empty_map]
    simp

/-- C7, witness: a concrete compare run and a concrete upsert run with the
key `"x"` unbound in every record produce the degenerate results. -/
theorem C7_missing_key_runs_degenerately_witness :
    handleCompareClick ⟨[[("a", "1")]], ["a"], "b.csv", ["1"], "a"⟩
        ⟨[[("a", "1")]], ["a"], "c.csv", ["1"], "a"⟩ "x" ⟨true, false⟩
      = some ⟨[], [], [], [], unionHeaders ["a"] ["a"]⟩ ∧
    upsertRun ⟨[[("a", "1")]], ["a"], "o.csv", ["1"], "a"⟩
        ⟨[[("a", "2")]], ["a"], "m.csv", ["2"], "a"⟩ "x" .original
      = [[("a", "1")]] :=
  ⟨C7_missing_key_runs_degenerately.1 ⟨true, false⟩ _ _ "x" (by decide) (by decide) (by decide),
   C7_missing_key_runs_degenerately.2 _ _ "x" .original (by decide)⟩

/-- C2 (code bug): on the input text `a,b\n1,"x\ny"` — a quoted field
containing a line break — the tokenizer yields one data record while the
raw-line capture (a naive `split(/\r?\n/)`) yields two raw data lines, so
`rows` and `rawLines` are neither equal in length nor index-aligned,
contradicting the documented invariant. -/
theorem C2_raw_line_misalignment :
    (parseCSVFileModel "a,b\n1,\"x\ny\"" "f.csv").rows = [[("a", "1"), ("b", "x\ny")]] ∧
    (parseCSVFileModel "a,b\n1,\"x\ny\"" "f.csv").rawLines = ["1,\"x", "y\""] ∧
    (parseCSVFileModel "a,b\n1,\"x\ny\"" "f.csv").rows.length
      ≠ (parseCSVFileModel "a,b\n1,\"x\ny\"" "f.csv").rawLines.length := by
  decide

/-- A doubling replacement of a nonempty string with a nonempty replacement
is nonempty. -/
theorem jsReplaceChar_data_ne_nil {s : String} (hs : s ≠ "") (c : Char) {r : List Char}
    (hr : r ≠ []) : (jsReplaceChar s c r).data ≠ [] := by
  have hd : s.data ≠ [] := by
    intro hnil
    exact hs (String.ext (by rw [hnil]))
  unfold jsReplaceChar
  cases hsd : s.data with
  | nil => exact absurd hsd hd
  | cons x xs =>
    simp only [hsd, List.map_cons, List.flatten_cons]
    intro habs
    rcases List.append_eq_nil.mp habs with ⟨h1, _⟩
    by_cases hx : (x == c) = true
    · rw [if_pos hx] at h1; exact hr h1
    · rw [if_neg hx] at h1; simp at h1

/-- C5, counterexample: for a file whose detected quote style is
single-quoted, the per-column exporter rebuilds a changed row wrapped in `"`
(double quotes), not in the detected quote character `'`. -/
theorem C5_counterexample :
    detectQuotePattern "'1','a'" = (true, '\'') ∧
    formatPreservingExportPC ["id", "name"] [[("id", "2"), ("name", "x")]]
        (parseCSVFileModel "id,name\n'1','a'" "f.csv") "id" ["2"]
      = "id,name\r\n\"2\",\"x\"" := by
  decide

/-- C5 (amended): the whole-line exporter rebuilds quoted-style fields
wrapped in the detected quote character with embedded occurrences doubled;
the per-column exporter records only *which* positions were quoted and
always wraps a rebuilt nonempty quoted-position field in `"` (doubling
embedded `"`), regardless of the file's original quote character. -/
theorem C5_rebuild_quote_styles :
    (∀ (s : String) (q : Char), formatValue (some s) true q
        = String.singleton q ++ jsReplaceChar s q [q, q] ++ String.singleton q) ∧
    (∀ s : String, s ≠ "" → formatValueForColumn (some s) true
        = "\"" ++ jsReplaceChar s '"' ['"', '"'] ++ "\"") := by
  constructor
  · intro s q
    simp [formatValue]
  · intro s hs
    simp only [formatValueForColumn, Option.getD_some]
    rw [if_neg (by simpa using hs)]
    simp

/-- C5, witness: the amended statement evaluated at the nonempty value
`"x"`. -/
theorem C5_rebuild_quote_styles_witness :
    formatValueForColumn (some "x") true = "\"" ++ jsReplaceChar "x" '"' ['"', '"'] ++ "\"" :=
  C5_rebuild_quote_styles.2 "x" (by decide)

/-- C6, counterexample: the whole-line exporter serializes a record with an
empty value in column `b` of a double-quoted-style file as the quoted empty
field `""`, not as an empty field between separators. -/
theorem C6_counterexample :
    detectQuotePattern "\"1\",\"x\"" = (true, '"') ∧
    formatPreservingExportWL ["a", "b"] [[("a", "1"), ("b", "")]]
        (parseCSVFileModel "a,b\n\"1\",\"x\"" "f.csv") "a" ["1"]
      = "a,b\r\n\"1\",\"\"" := by
  decide

/-- C6 (amended): the per-column formatter emits an empty field for an
empty (or missing) value regardless of the quote flag and never produces
the two-character field `""`; the whole-line formatter emits an empty value
as an empty field only under an unquoted detected style — under a quoted
style it emits the doubled quote character. -/
theorem C6_empty_value_fields :
    (∀ b : Bool, formatValueForColumn (some "") b = "" ∧ formatValueForColumn none b = "") ∧
    (∀ (v : Option String) (b : Bool), formatValueForColumn v b ≠ "\"\"") ∧
    (∀ q : Char, formatValue (some "") false q = "") ∧
    (∀ q : Char, formatValue (some "") true q = String.singleton q ++ String.singleton q) := by
  refine ⟨fun b => ⟨rfl, rfl⟩, ?_, fun q => ?_, fun q => ?_⟩
  · intro v b
    simp only [formatValueForColumn]
    split
    · decide
    · next hs =>
      split
      · intro heq
        have hlen := congrArg String.length heq
        rw [String.length_append, String.length_append] at hlen
        have h1 : ("\"" : String).length = 1 := rfl
        have h2 : ("\"\"" : String).length = 2 := rfl
        rw [h1, h2] at hlen
        have hz : (jsReplaceChar (v.getD "") '"' ['"', '"']).length = 0 := by omega
        have hnil : (jsReplaceChar (v.getD "") '"' ['"', '"']).data = [] :=
          List.length_eq_zero.mp hz
        exact jsReplaceChar_data_ne_nil (by simpa using hs) '"' (by simp) hnil
      · next hneed =>
        intro heq
        rw [heq] at hneed
        apply hneed
        have hq : jsIncludesChar "\"\"" '"' = true := by decide
        simp [hq]
  · rfl
  · rfl

/-! ## Byte-exact replay of the per-column exporter (C1) -/

theorem zip_self_all_beq (hs : List String) :
    (hs.zip hs).all (fun p => p.1 == p.2) = true := by
  induction hs with
  | nil => rfl
  | cons h t ih => simp [ih]

/-- Unchanged headers are not reported as changed. -/
theorem headersChangedB_self (hs : List String) : headersChangedB hs hs = false := by
  unfold headersChangedB
  simp [zip_self_all_beq]

theorem mapHas_append {α : Type} (m1 m2 : List (String × α)) (k : String) :
    mapHas (m1 ++ m2) k = (mapHas m1 k || mapHas m2 k) := by
  induction m1 with
  | nil => simp [mapHas]
  | cons q m ih => simp [mapHas, ih, Bool.or_assoc]

/-- With aligned, nonblank raw lines and pairwise-distinct nonempty keys not
yet in the map, the raw-line lookup loop appends one entry per record. -/
theorem rawByKeyAux_eq_zip {key : String} :
    ∀ (rows : List Row) (raws : List String) (m : List (String × String)),
      rows.length = raws.length →
      (∀ l ∈ raws, l ≠ "") →
      (∀ r ∈ rows, keyOf key r ≠ "") →
      (rows.map (keyOf key)).Pairwise (· ≠ ·) →
      (∀ r ∈ rows, mapHas m (keyOf key r) = false) →
      rawByKeyAux key rows raws m = m ++ (rows.map (keyOf key)).zip raws := by
  intro rows
  induction rows with
  | nil => intro raws m _ _ _ _ _; simp [rawByKeyAux]
  | cons r rs ih =>
    intro raws m hlen hraw hkey hpw hfresh
    cases raws with
    | nil => simp at hlen
    | cons raw raws' =>
      have hk : keyOf key r ≠ "" := hkey r (List.mem_cons_self _ _)
      have hrw : raw ≠ "" := hraw raw (List.mem_cons_self _ _)
      simp only [rawByKeyAux, List.headD_cons, List.tail_cons]
      rw [if_pos (by simp [hk, hrw])]
      rw [mapSet_eq_append raw (hfresh r (List.mem_cons_self _ _))]
      rw [List.map_cons, List.zip_cons_cons]
      rw [ih raws' (m ++ [(keyOf key r, raw)])
        (by simpa using hlen)
        (fun l hl => hraw l (List.mem_cons_of_mem _ hl))
        (fun q hq => hkey q (List.mem_cons_of_mem _ hq))
        ((List.pairwise_cons.mp (by simpa using hpw)).2)
        ?_]
      · simp
      · intro q hq
        rw [mapHas_append]
        have h1 : mapHas m (keyOf key q) = false := hfresh q (List.mem_cons_of_mem _ hq)
        have h2 : keyOf key r ≠ keyOf key q :=
          (List.pairwise_cons.mp (by simpa using hpw)).1 (keyOf key q)
            (List.mem_map_of_mem _ hq)
        simp [mapHas, h1, h2]

/-- Looking a pairwise-distinct key list zipped with values up at the key of
position `i` yields the value of position `i`. -/
theorem mapGet_zip_of_pairwise {α : Type} :
    ∀ (keys : List String) (vals : List α) (i : Nat) (k : String) (v : α),
      keys.Pairwise (· ≠ ·) →
      keys[i]? = some k → vals[i]? = some v →
      mapGet (keys.zip vals) k = some v := by
  intro keys
  induction keys with
  | nil => intro vals i k v _ hk _; simp at hk
  | cons k0 keys' ih =>
    intro vals i k v hpw hk hv
    cases vals with
    | nil => simp at hv
    | cons v0 vals' =>
      cases i with
      | zero =>
        simp only [List.getElem?_cons_zero, Option.some.injEq] at hk hv
        subst hk; subst hv
        simp [List.zip_cons_cons, mapGet]
      | succ i =>
        simp only [List.getElem?_cons_succ] at hk hv
        have hkmem : k ∈ keys' := List.getElem?_mem hk
        have hne : k0 ≠ k := (List.pairwise_cons.mp hpw).1 k hkmem
        rw [List.zip_cons_cons, mapGet_cons, if_neg (by simpa using hne)]
        exact ih vals' i k v (List.pairwise_cons.mp hpw).2 hk hv

/-- C1, counterexample: a parsed file with two records whose keys both trim
to `"1"`; exporting the file's own rows with empty `changedKeys` and
unchanged headers replays the *last* raw line for both records, so the
first retained record's output is not its original raw bytes `1,a`. -/
theorem C1_counterexample :
    (parseCSVFileModel "id,v\n1,a\n1,b" "f.csv").rawLines = ["1,a", "1,b"] ∧
    formatPreservingExportPC (parseCSVFileModel "id,v\n1,a\n1,b" "f.csv").headers
        (parseCSVFileModel "id,v\n1,a\n1,b" "f.csv").rows
        (parseCSVFileModel "id,v\n1,a\n1,b" "f.csv") "id" []
      = "id,v\r\n1,b\r\n1,b" := by
  decide

/-- C1 (amended): provided the original file's records have pairwise
distinct, nonempty trimmed keys and its raw data lines are nonblank and
aligned 1:1 with its records, the per-column format-preserving export of
the original rows with the original headers and an empty `changedKeys` set
emits every retained record as the exact bytes of its original raw data
line: the data lines equal `rawLines` verbatim and the whole export is the
rebuilt header line followed by the raw lines. -/
theorem C1_byte_exact_replay :
    ∀ (o : ParsedCSV) (key : String),
      o.rows.length = o.rawLines.length →
      (∀ l ∈ o.rawLines, l ≠ "") →
      (∀ r ∈ o.rows, keyOf key r ≠ "") →
      (o.rows.map (keyOf key)).Pairwise (· ≠ ·) →
      pcDataLines o.headers o.rows o key [] = o.rawLines ∧
      formatPreservingExportPC o.headers o.rows o key []
        = jsJoin "\r\n" (pcHeaderLine o.headers o :: o.rawLines) := by
  intro o key hlen hraw hkey hpw
  have hmap : originalRawByKey o key = (o.rows.map (keyOf key)).zip o.rawLines := by
    unfold originalRawByKey
    rw [rawByKeyAux_eq_zip o.rows o.rawLines [] hlen hraw hkey hpw (fun _ _ => rfl)]
    simp
  have hdata : pcDataLines o.headers o.rows o key [] = o.rawLines := by
    apply List.ext_getElem?
    intro n
    simp only [pcDataLines]
    rw [List.getElem?_map]
    cases hn : o.rows[n]? with
    | none =>
      have hlen' : o.rows.length ≤ n := List.getElem?_eq_none_iff.mp hn
      rw [List.getElem?_eq_none (by omega : o.rawLines.length ≤ n)]
      rfl
    | some r =>
      have hn' : n < o.rows.length := by
        rcases List.getElem?_eq_some_iff.mp hn with ⟨h, _⟩
        exact h
      obtain ⟨raw, hrawn⟩ : ∃ raw, o.rawLines[n]? = some raw := by
        have : n < o.rawLines.length := by omega
        exact ⟨o.rawLines[n], by simp [this]⟩
      have hkeyn : (o.rows.map (keyOf key))[n]? = some (keyOf key r) := by
        rw [List.getElem?_map, hn]
        rfl
      have hget : mapGet (originalRawByKey o key) (keyOf key r) = some raw := by
        rw [hmap]
        exact mapGet_zip_of_pairwise _ _ n _ _ hpw hkeyn hrawn
    
      have hhas : mapHas (originalRawByKey o key) (keyOf key r) = true :=
        mapHas_iff_isSome.mpr (by simp [hget])
      rw [hrawn, Option.map_some']
      rw [if_pos (by simp [headersChangedB_self, hhas])]
      rw [hget]
      rfl
  refine ⟨hdata, ?_⟩
  unfold formatPreservingExportPC
  rw [hdata]

/-- C1, witness: a two-record file with distinct keys replays both raw
lines byte-exactly. -/
theorem C1_byte_exact_replay_witness :
    pcDataLines (parseCSVFileModel "id,v\n1,a\n2,b" "f.csv").headers
        (parseCSVFileModel "id,v\n1,a\n2,b" "f.csv").rows
        (parseCSVFileModel "id,v\n1,a\n2,b" "f.csv") "id" []
      = (parseCSVFileModel "id,v\n1,a\n2,b" "f.csv").rawLines ∧
    formatPreservingExportPC (parseCSVFileModel "id,v\n1,a\n2,b" "f.csv").headers
        (parseCSVFileModel "id,v\n1,a\n2,b" "f.csv").rows
        (parseCSVFileModel "id,v\n1,a\n2,b" "f.csv") "id" []
      = jsJoin "\r\n" (pcHeaderLine (parseCSVFileModel "id,v\n1,a\n2,b" "f.csv").headers
          (parseCSVFileModel "id,v\n1,a\n2,b" "f.csv")
        :: (parseCSVFileModel "id,v\n1,a\n2,b" "f.csv").rawLines) :=
  C1_byte_exact_replay (parseCSVFileModel "id,v\n1,a\n2,b" "f.csv") "id"
    (by decide) (by decide) (by decide) (by decide)

/-! ## Merge-mode coverage (C3) -/

theorem string_beq_comm (a b : String) : (a == b) = (b == a) := by
  by_cases h : a = b
  · simp [h]
  · rw [beq_eq_false_iff_ne.mpr h, beq_eq_false_iff_ne.mpr (Ne.symm h)]

theorem mapHas_eq_false_iff {α : Type} :
    ∀ {m : List (String × α)} {k : String}, mapHas m k = false ↔ ∀ p ∈ m, p.1 ≠ k := by
  intro m
  induction m with
  | nil => intro k; simp [mapHas]
  | cons q m ih =>
    intro k
    simp [mapHas, ih, beq_eq_false_iff_ne]

/-- One-step unfolding of the upsert base pass. -/
theorem upsertPass_cons (headersOut : List String) (key : String)
    (m : List (String × Row)) (b : Row) (bs : List Row) :
    upsertPass headersOut key m (b :: bs)
      = ((upsertStep headersOut key m b).1 ::
          (upsertPass headersOut key (upsertStep headersOut key m b).2 bs).1,
         (upsertPass headersOut key (upsertStep headersOut key m b).2 bs).2) := by
  simp only [upsertPass]

/-- The surviving modification map after the base pass is the initial map
with every key occurring (nonempty) in the base filtered out. -/
theorem upsertPass_snd (headersOut : List String) (key : String) :
    ∀ (base : List Row) (m : List (String × Row)),
      (∀ p ∈ m, p.1 ≠ "") →
      (upsertPass headersOut key m base).2
        = m.filter (fun p => !(base.any (fun b => keyOf key b == p.1))) := by
  intro base
  induction base with
  | nil => intro m _; simp [upsertPass]
  | cons b bs ih =>
    intro m hinv
    rw [upsertPass_cons]
    by_cases hcond : (keyOf key b != "" && mapHas m (keyOf key b)) = true
    · have hstep2 : (upsertStep headersOut key m b).2 = mapDelete m (keyOf key b) := by
        unfold upsertStep
        rw [if_pos hcond]
      rw [hstep2, ih (mapDelete m (keyOf key b)) (fun p hp => hinv p (mapDelete_subset hp))]
      unfold mapDelete
      rw [List.filter_filter]
      apply List.filter_congr
      intro p _
      simp only [List.any_cons, Bool.not_or, bne, string_beq_comm p.1 (keyOf key b)]
      rw [Bool.and_comm]
    · have hstep2 : (upsertStep headersOut key m b).2 = m := by
        unfold upsertStep
        rw [if_neg hcond]
      rw [hstep2, ih m hinv]
      apply List.filter_congr
      intro p hp
      have hb : (keyOf key b == p.1) = false := by
        by_cases hid : keyOf key b = ""
        · rw [beq_eq_false_iff_ne]
          rw [hid]
          exact fun h => hinv p hp h.symm
        · have hhas : mapHas m (keyOf key b) = false := by
            by_cases hhas : mapHas m (keyOf key b) = true
            · exact absurd (by simp [hhas, hid]) hcond
            · simpa using hhas
          rw [beq_eq_false_iff_ne]
          exact Ne.symm (mapHas_eq_false_iff.mp hhas p hp)
      simp [List.any_cons, hb]

/-- Building a key map from rows with pairwise-distinct nonempty keys (none
already present) appends one entry per row in order. -/
theorem foldl_keyMapStep_eq {norm : Row → String} :
    ∀ (rows : List Row) (m : List (String × Row)),
      (∀ r ∈ rows, norm r ≠ "") →
      (rows.map norm).Pairwise (· ≠ ·) →
      (∀ r ∈ rows, mapHas m (norm r) = false) →
      rows.foldl (keyMapStep norm) m = m ++ rows.map (fun r => (norm r, r)) := by
  intro rows
  induction rows with
  | nil => intro m _ _ _; simp
  | cons r rs ih =>
    intro m hkey hpw hfresh
    simp only [List.foldl_cons]
    rw [show keyMapStep norm m r = m ++ [(norm r, r)] by
      unfold keyMapStep
      rw [if_pos (by simp [hkey r (List.mem_cons_self _ _)]),
        mapSet_eq_append _ (hfresh r (List.mem_cons_self _ _))]]
    rw [ih (m ++ [(norm r, r)])
      (fun q hq => hkey q (List.mem_cons_of_mem _ hq))
      ((List.pairwise_cons.mp (by simpa using hpw)).2)
      ?_]
    · simp
    · intro q hq
      rw [mapHas_append]
      have h1 : mapHas m (norm q) = false := hfresh q (List.mem_cons_of_mem _ hq)
      have h2 : norm r ≠ norm q :=
        (List.pairwise_cons.mp (by simpa using hpw)).1 (norm q) (List.mem_map_of_mem _ hq)
      simp [mapHas, h1, h2]

/-- With pairwise-distinct nonempty keys the key map is exactly the rows
paired with their keys, in order. -/
theorem buildKeyMap_eq_map {norm : Row → String} (rows : List Row)
    (hkey : ∀ r ∈ rows, norm r ≠ "")
    (hpw : (rows.map norm).Pairwise (· ≠ ·)) :
    buildKeyMap norm rows = rows.map (fun r => (norm r, r)) := by
  unfold buildKeyMap
  rw [foldl_keyMapStep_eq rows [] hkey hpw (fun _ _ => rfl)]
  simp

theorem filter_map_pair (norm : Row → String) (c : String → Bool) :
    ∀ (rows : List Row),
      ((rows.map (fun r => (norm r, r))).filter (fun p => c p.1)).map (fun p => p.2)
        = rows.filter (fun r => c (norm r)) := by
  intro rows
  induction rows with
  | nil => rfl
  | cons r rs ih =>
    by_cases h : c (norm r) = true <;> simp [List.filter_cons, h, ih]

/-- Every processed base row is the base row itself or the base row merged
with some modification record. -/
theorem upsertPass_fst (headersOut : List String) (key : String) (mods : List Row) :
    ∀ (base : List Row) (m : List (String × Row)),
      (∀ p ∈ m, p.2 ∈ mods) →
      List.Forall₂ (fun b r => r = b ∨ ∃ mr ∈ mods, r = assignRow b mr)
        base (upsertPass headersOut key m base).1 := by
  intro base
  induction base with
  | nil => intro m _; exact List.Forall₂.nil
  | cons b bs ih =>
    intro m hinv
    rw [upsertPass_cons]
    refine List.Forall₂.cons ?_ ?_
    · by_cases hcond : (keyOf key b != "" && mapHas m (keyOf key b)) = true
      · have hhas : mapHas m (keyOf key b) = true := by
          simp only [Bool.and_eq_true] at hcond
          exact hcond.2
        obtain ⟨v, hv⟩ := Option.isSome_iff_exists.mp (mapHas_iff_isSome.mp hhas)
        have hstep1 : (upsertStep headersOut key m b).1
            = if hasChangesB headersOut b v then assignRow b v else b := by
          unfold upsertStep
          rw [if_pos hcond, hv]
          rfl
        rw [hstep1]
        split
        · exact Or.inr ⟨v, hinv (keyOf key b, v) (mapGet_mem hv), rfl⟩
        · exact Or.inl rfl
      · have hstep1 : (upsertStep headersOut key m b).1 = b := by
          unfold upsertStep
          rw [if_neg hcond]
        rw [hstep1]
        exact Or.inl rfl
    · apply ih
      intro p hp
      by_cases hcond : (keyOf key b != "" && mapHas m (keyOf key b)) = true
      · have h2 : (upsertStep headersOut key m b).2 = mapDelete m (keyOf key b) := by
          unfold upsertStep
          rw [if_pos hcond]
        rw [h2] at hp
        exact hinv p (mapDelete_subset hp)
      · have h2 : (upsertStep headersOut key m b).2 = m := by
          unfold upsertStep
          rw [if_neg hcond]
        rw [h2] at hp
        exact hinv p hp

/-- C3, counterexample: a modification record whose key duplicates a later
record's key, and one whose key normalizes to empty, never appear as
inserts even though their keys are absent from the base — only the last
duplicate is appended once. -/
theorem C3_counterexample :
    upsertRun (parseCSVFileModel "id,v\n9,z" "o.csv")
        (parseCSVFileModel "id,v\n2,a\n2,b" "m.csv") "id" .original
      = [[("id", "9"), ("v", "z")], [("id", "2"), ("v", "b")]] ∧
    upsertRun (parseCSVFileModel "id,v\n9,z" "o.csv")
        (parseCSVFileModel "id,v\n,x" "m.csv") "id" .original
      = [[("id", "9"), ("v", "z")]] := by
  decide

/-- C3 (amended): every base record appears exactly once in the merge
output, at its original position, either retained as-is or merged with a
modification record; provided the modification records' normalized keys are
nonempty and pairwise distinct, the inserts appended after all base rows
are exactly the modification records whose key occurs in no base record,
in the modification file's original order; and the output is the processed
base rows followed by those inserts, so no record is duplicated or
dropped. -/
theorem C3_merge_coverage :
    ∀ (o mods : ParsedCSV) (key : String) (mode : HeaderMode),
      (∀ r ∈ mods.rows, keyOf key r ≠ "") →
      (mods.rows.map (keyOf key)).Pairwise (· ≠ ·) →
      List.Forall₂ (fun b r => r = b ∨ ∃ mr ∈ mods.rows, r = assignRow b mr)
        o.rows
        (upsertPass (upsertHeadersOut mode o mods) key (upsertModMap key mods.rows) o.rows).1 ∧
      upsertInserts o mods key mode
        = mods.rows.filter
            (fun r => !(o.rows.any (fun b => keyOf key b == keyOf key r))) ∧
      upsertRun o mods key mode
        = (upsertPass (upsertHeadersOut mode o mods) key (upsertModMap key mods.rows) o.rows).1
          ++ upsertInserts o mods key mode := by
  intro o mods key mode hkey hpw
  have hmm : upsertModMap key mods.rows
      = mods.rows.map (fun r => (keyOf key r, r)) := by
    unfold upsertModMap
    exact buildKeyMap_eq_map mods.rows hkey hpw
  refine ⟨?_, ?_, rfl⟩
  · apply upsertPass_fst
    intro p hp
    exact (buildKeyMap_mem hp).1
  · unfold upsertInserts
    rw [upsertPass_snd _ _ o.rows (upsertModMap key mods.rows)
      (fun p hp => (buildKeyMap_mem hp).2.2)]
    rw [hmm]
    exact filter_map_pair (keyOf key)
      (fun k => !(o.rows.any (fun b => keyOf key b == k))) mods.rows

/-- C3, witness: spec Scenario B — base `{id 1, v a}`, modifications
`{id 1, v b}` and `{id 2, v c}` — instantiates the amended coverage
statement. -/
theorem C3_merge_coverage_witness :
    List.Forall₂ (fun b r => r = b ∨
        ∃ mr ∈ [[("id", "1"), ("v", "b")], [("id", "2"), ("v", "c")]], r = assignRow b mr)
      [[("id", "1"), ("v", "a")]]
      (upsertPass (upsertHeadersOut .original
          ⟨[[("id", "1"), ("v", "a")]], ["id", "v"], "o.csv", ["1,a"], "id,v"⟩
          ⟨[[("id", "1"), ("v", "b")], [("id", "2"), ("v", "c")]], ["id", "v"], "m.csv",
            ["1,b", "2,c"], "id,v"⟩) "id"
        (upsertModMap "id" [[("id", "1"), ("v", "b")], [("id", "2"), ("v", "c")]])
        [[("id", "1"), ("v", "a")]]).1 ∧
    upsertInserts ⟨[[("id", "1"), ("v", "a")]], ["id", "v"], "o.csv", ["1,a"], "id,v"⟩
        ⟨[[("id", "1"), ("v", "b")], [("id", "2"), ("v", "c")]], ["id", "v"], "m.csv",
          ["1,b", "2,c"], "id,v"⟩ "id" .original
      = [[("id", "1"), ("v", "b")], [("id", "2"), ("v", "c")]].filter
          (fun r => !([[("id", "1"), ("v", "a")]].any
            (fun b => keyOf "id" b == keyOf "id" r))) ∧
    upsertRun ⟨[[("id", "1"), ("v", "a")]], ["id", "v"], "o.csv", ["1,a"], "id,v"⟩
        ⟨[[("id", "1"), ("v", "b")], [("id", "2"), ("v", "c")]], ["id", "v"], "m.csv",
          ["1,b", "2,c"], "id,v"⟩ "id" .original
      = (upsertPass (upsertHeadersOut .original
            ⟨[[("id", "1"), ("v", "a")]], ["id", "v"], "o.csv", ["1,a"], "id,v"⟩
            ⟨[[("id", "1"), ("v", "b")], [("id", "2"), ("v", "c")]], ["id", "v"], "m.csv",
              ["1,b", "2,c"], "id,v"⟩) "id"
          (upsertModMap "id" [[("id", "1"), ("v", "b")], [("id", "2"), ("v", "c")]])
          [[("id", "1"), ("v", "a")]]).1
        ++ upsertInserts ⟨[[("id", "1"), ("v", "a")]], ["id", "v"], "o.csv", ["1,a"], "id,v"⟩
            ⟨[[("id", "1"), ("v", "b")], [("id", "2"), ("v", "c")]], ["id", "v"], "m.csv",
              ["1,b", "2,c"], "id,v"⟩ "id" .original :=
  C3_merge_coverage
    ⟨[[("id", "1"), ("v", "a")]], ["id", "v"], "o.csv", ["1,a"], "id,v"⟩
    ⟨[[("id", "1"), ("v", "b")], [("id", "2"), ("v", "c")]], ["id", "v"], "m.csv",
      ["1,b", "2,c"], "id,v"⟩ "id" .original (by decide) (by decide)

end CSVStudio
